import Mathlib

/-!
Verification of the incremental, resumable Zarr store-build pipeline of this
repository (`preprocess_data/build_zarr.py`, with its collaborators
`preprocess_data/utils/path_utils.py` and
`preprocess_data/fix_duplicate_times.py`).

The Python functions are shallowly embedded as executable Lean definitions:

* the completion-state JSON dictionary becomes an insertion-ordered
  association list `CState` (`List (String × Bool)`), with Python's
  `dict.__setitem__` / `dict.update` / `dict.get` semantics made explicit;
* the on-disk completion file is modelled for `save_completion_state` as a
  sequence of atomic filesystem steps (`WriteStep`): `open(path, "w")`
  truncates, then `json.dump` writes the serialized contents;
* a per-variable dataset (`xarray` dataset of one variable) becomes a list of
  time records carrying the nominal time coordinate, the paired
  `time_bnds` interval and a sample value, together with a flag recording
  whether the `time_bnds` field exists at all;
* `xarray.Dataset.sortby("time")` (a stable sort on the time coordinate)
  becomes `List.insertionSort` on the time field, which is stable;
* the driver loop of `main` becomes an explicit fold over the configured
  (experiment, frequency) units producing the final completion state and a
  trace of observable events (skip / build / merge / store write / persist);
* the variable catalog `get_variables_for_experiment` and the tag
  normalizer `_normalize_tag_padded` are embedded directly, with the CSV
  files (data assets not present in the source tree) abstracted as the
  already-parsed row lists they denote.
-/

namespace ZarrBuild

/-- Decidable equality for `Except` results, used to evaluate the embedded
functions on concrete inputs. -/
instance {ε α : Type} [DecidableEq ε] [DecidableEq α] : DecidableEq (Except ε α) := fun a b =>
  match a, b with
  | Except.ok x, Except.ok y =>
    if h : x = y then isTrue (by rw [h])
    else isFalse (by intro hc; injection hc; exact h (by assumption))
  | Except.error x, Except.error y =>
    if h : x = y then isTrue (by rw [h])
    else isFalse (by intro hc; injection hc; exact h (by assumption))
  | Except.ok _, Except.error _ => isFalse (fun hc => Except.noConfusion hc)
  | Except.error _, Except.ok _ => isFalse (fun hc => Except.noConfusion hc)

/-! ### Completion state (`build_zarr.py`, lines 49-93)

`CState` models a Python `dict[str, bool]` as an insertion-ordered
association list whose keys are unique whenever the list was built by
`dinsert` (Python dictionaries cannot hold duplicate keys). -/

/-- A completion-state dictionary: insertion-ordered `str -> bool` mapping. -/
abbrev CState := List (String × Bool)

/-- Python `d[k]` / `d.get(k)`: first (and, for genuine dicts, only) binding. -/
def lookupA : CState → String → Option Bool
  | [], _ => none
  | p :: rest, k => if p.1 == k then some p.2 else lookupA rest k

/-- Python `d[k] = v`: replace the binding in place if present, else append. -/
def dinsert : CState → String → Bool → CState
  | [], k, v => [(k, v)]
  | p :: rest, k, v =>
    if p.1 == k then (k, v) :: rest else p :: dinsert rest k v

/-- Last binding of `k` in a raw association list. Python's `json.load`
keeps the last of duplicate JSON keys, and `dict.update` applied to a
duplicate-keyed item sequence also lets the last occurrence win, so the
overlay semantics of `load_completion_state` is expressed through it. -/
def lookupLast {α : Type} : List (String × α) → String → Option α
  | [], _ => none
  | p :: rest, k =>
    match lookupLast rest k with
    | some v => some v
    | none => if p.1 == k then some p.2 else none

/-- `Option` fallback used to state overlay facts. -/
def oElse {α : Type} : Option α → Option α → Option α
  | some v, _ => some v
  | none, b => b

/-- `completion_key` (build_zarr.py line 86): `f"{experiment}|{frequency}"`. -/
def completion_key (experiment frequency : String) : String :=
  experiment ++ "|" ++ frequency

/-- `is_store_complete` (build_zarr.py line 91): `state.get(key, False)`. -/
def is_store_complete (st : CState) (experiment frequency : String) : Bool :=
  (lookupA st (completion_key experiment frequency)).getD false

/-- The configured unit keys, in driver iteration order:
outer loop over frequencies, inner loop over experiments. -/
def unitKeys (frequencies experiments : List String) : List String :=
  frequencies.flatMap (fun freq => experiments.map (fun exp => completion_key exp freq))

/-- The dict comprehension of `load_completion_state` (lines 63-68):
every configured pair mapped to `False`. -/
def defaultCState (frequencies experiments : List String) : CState :=
  (unitKeys frequencies experiments).foldl (fun st k => dinsert st k false) []

/-- `load_completion_state` (build_zarr.py lines 54-75). The on-disk JSON
file is `disk`: `none` when `os.path.isfile` is false, otherwise the parsed
object as an association list. `default.update(on_disk)` inserts every
on-disk binding, in order, into the default dict. -/
def load_completion_state (frequencies experiments : List String)
    (disk : Option (List (String × Bool))) : CState :=
  match disk with
  | none => defaultCState frequencies experiments
  | some onDisk =>
    onDisk.foldl (fun st p => dinsert st p.1 p.2) (defaultCState frequencies experiments)

/-! ### `save_completion_state` as atomic filesystem steps (lines 78-83)

`save_completion_state` runs `open(path, "w")` — which truncates the file in
place — and then `json.dump(state, f)`, which writes the serialized state.
Each `WriteStep` is one atomic step of that sequence; interrupting the
process between steps leaves the file at an intermediate state. -/

/-- One atomic filesystem mutation performed by `save_completion_state`. -/
inductive WriteStep
  | openTruncate
  | writeAll (content : String)
deriving Repr, DecidableEq

/-- The step sequence of `save_completion_state` when the serialized new
state is `newContent`: truncate-on-open, then write. -/
def save_completion_state_steps (newContent : String) : List WriteStep :=
  [WriteStep.openTruncate, WriteStep.writeAll newContent]

/-- Effect of one step on the file contents. -/
def applyWrite (file : String) : WriteStep → String
  | WriteStep.openTruncate => ""
  | WriteStep.writeAll s => file ++ s

/-- Every observable on-disk contents of the completion file during a save:
the contents after each prefix of the step sequence (index 0 is the prior
contents; an interruption at any point exposes one of these). -/
def fileStates (file : String) (steps : List WriteStep) : List String :=
  steps.scanl applyWrite file

/-! ### Chunk planner (`build_zarr.py`, lines 208-219) -/

/-- `'lev' in ds_var.dims or 'ilev' in ds_var.dims`. -/
def hasVerticalDim (dims : List String) : Bool :=
  dims.contains "lev" || dims.contains "ilev"

/-- The chunk-size decision of `main` (lines 208-219): time-chunk size per
frequency and dimensionality, `ValueError` on any other frequency. -/
def chunkTimeSize (frequency : String) (dims : List String) : Except String Nat :=
  if frequency == "day" then
    if dims.contains "lev" || dims.contains "ilev" then Except.ok 5 else Except.ok 73
  else if frequency == "mon" then
    if dims.contains "lev" || dims.contains "ilev" then Except.ok 6 else Except.ok 120
  else
    Except.error ("Invalid frequency: " ++ frequency)

/-! ### Time normalization (`build_zarr.py`, lines 195-201)

One record of a variable's raw time series: the nominal `time` coordinate,
the paired `time_bnds` interval `(lo, hi)` and the data value, all as
integers (days since the calendar origin, as in the CF time encoding). -/

structure TimeRec where
  time : Int
  lo : Int
  hi : Int
  val : Int
deriving Repr, DecidableEq

/-- A variable's raw time series plus whether the `time_bnds` field exists
in the underlying files. -/
structure VarData where
  recs : List TimeRec
  hasTimeBnds : Bool
deriving Repr, DecidableEq

/-- `ds_var.sortby('time')`: a stable sort on the time coordinate
(`xarray` sorts with a stable `numpy` argsort). -/
def sortByTime (rs : List TimeRec) : List TimeRec :=
  List.insertionSort (fun a b => a.time ≤ b.time) rs

/-- Lines 195-201 of `main` for one variable: sort by time, load
`time_bnds` (a `KeyError` if the field is absent — the access happens for
every frequency), and for monthly data replace each record's time with the
lower bound of its interval. -/
def processVariable (frequency : String) (v : VarData) : Except String (List TimeRec) :=
  let sorted := sortByTime v.recs
  if v.hasTimeBnds then
    if frequency == "mon" then
      Except.ok (sorted.map (fun r => { r with time := r.lo }))
    else
      Except.ok sorted
  else
    Except.error "KeyError: time_bnds"

/-! ### The driver loop (`build_zarr.py`, `main`, lines 172-237)

The per-unit work is abstracted to its observable effects: building the
base dataset, merging each catalog variable, writing the store and
persisting the updated completion state. `catalog e f` stands for the
variable list returned by `get_variables_for_experiment`, and `writeOk k`
for whether the `to_zarr` store write of unit `k` returns successfully
(an exception there propagates and aborts the whole run, since `main` has
no handler). -/

/-- An observable action of the driver, in program order. -/
inductive DEvent
  | skip (key : String)
  | buildBase (key : String)
  | mergeVar (key : String) (v : String)
  | writeStore (key : String)
  | persist (st : CState)
deriving Repr, DecidableEq

/-- One iteration of the inner loop of `main` (lines 175-237) for the unit
(experiment, frequency): skip when already complete; otherwise build the
base dataset, merge every catalog variable, attempt the store write, and —
only when the write returned — mark the unit complete and immediately
persist the updated state. The `Bool` result is false when the store write
raised, in which case the state is left unchanged and the run aborts. -/
def runUnit (catalog : String → String → List String) (writeOk : String → Bool)
    (st : CState) (experiment frequency : String) : CState × List DEvent × Bool :=
  let k := completion_key experiment frequency
  if is_store_complete st experiment frequency then
    (st, [DEvent.skip k], true)
  else
    let evs := DEvent.buildBase k ::
      ((catalog experiment frequency).map (DEvent.mergeVar k) ++ [DEvent.writeStore k])
    if writeOk k then
      let st1 := dinsert st k true
      (st1, evs ++ [DEvent.persist st1], true)
    else
      (st, evs, false)

/-- The driver over a list of units, stopping at the first failed store
write (the exception propagates out of `main`). -/
def driverRun (catalog : String → String → List String) (writeOk : String → Bool) :
    CState → List (String × String) → CState × List DEvent × Bool
  | st, [] => (st, [], true)
  | st, u :: rest =>
    let r := runUnit catalog writeOk st u.1 u.2
    if r.2.2 then
      let r2 := driverRun catalog writeOk r.1 rest
      (r2.1, r.2.1 ++ r2.2.1, r2.2.2)
    else
      (r.1, r.2.1, false)

/-- The configured units in driver order (`for frequency in frequencies:
for experiment in experiments`), as (experiment, frequency) pairs. -/
def unitsOf (frequencies experiments : List String) : List (String × String) :=
  frequencies.flatMap (fun f => experiments.map (fun e => (e, f)))

/-! ### Duplicate-time repair utility (`fix_duplicate_times.py`, lines 18-26) -/

/-- Loop body of `first_unique_time_indices`: `seen` is the set of time
values already encountered (as a list used only through membership), `i`
the index of the next element. -/
def firstUniqueAux (seen : List Int) (i : Nat) : List Int → List Nat
  | [] => []
  | t :: rest =>
    if seen.contains t then firstUniqueAux seen (i + 1) rest
    else i :: firstUniqueAux (t :: seen) (i + 1) rest

/-- `first_unique_time_indices(time_values)`: indices of the first
occurrence of each unique time value. -/
def first_unique_time_indices (ts : List Int) : List Nat :=
  firstUniqueAux [] 0 ts

/-- Value-level counterpart of the index selection: the subsequence of
time values the repair utility keeps (first occurrence of each value). -/
def keepFirstSeen (seen : List Int) : List Int → List Int
  | [] => []
  | t :: rest =>
    if seen.contains t then keepFirstSeen seen rest
    else t :: keepFirstSeen (t :: seen) rest

/-! ### Variable catalog (`utils/path_utils.py`, lines 11-120)

The CSV assets read by `get_variables_for_experiment` are data files, not
source code; they enter the embedding as the already-parsed row lists they
denote: `(variable_name, classification)` pairs for the vanilla CSVs and a
name list for the tag CSV. Everything from the classification filter on is
embedded from the source. -/

/-- Python `"tag" in experiment` on character lists. -/
def listContainsSub (hay needle : List Char) : Bool :=
  match hay with
  | [] => needle.isEmpty
  | _ :: t => needle.isPrefixOf hay || listContainsSub t needle

/-- `use_tags = "tag" in experiment` (path_utils.py line 73). -/
def useTagsOf (experiment : String) : Bool :=
  listContainsSub experiment.toList "tag".toList

/-- The vanilla-CSV loop (lines 80-96): keep a row according to its
classification, the same name serving as original and normalized name. -/
def vanillaPairs (useTags : Bool) (rows : List (String × String)) :
    List (String × String) :=
  rows.filterMap (fun row =>
    if row.2 == "both" then some (row.1, row.1)
    else if useTags && row.2 == "tag" then some (row.1, row.1)
    else if !useTags && row.2 == "no_tag" then some (row.1, row.1)
    else none)

/-- `tags_pref` (line 106). -/
def tagPrefixes : List String := ["", "PRECRC_", "PRECRL_", "PRECSC_", "PRECSL_"]

/-- `tags_suff` (line 107). -/
def tagSuffixes : List String := ["V", "r", "R", "s", "S"]

/-! ### Tag normalizer (`utils/path_utils.py`, lines 11-23)

`_normalize_tag_padded` applies the regex
`^(LAT|LON)(\d+)([SNEW])$` with `re.IGNORECASE` (Python's `$` also accepts
one trailing newline), and on a match rebuilds the tag as
`PREFIX + int(num) zero-padded to 2 (LAT) or 3 (LON) digits + DIRECTION`,
both parts upper-cased. -/

/-- Numeric value of a decimal digit character. -/
def digitVal (c : Char) : Nat := c.toNat - 48

/-- Python `int(num)` on a digit string. -/
def parseDigits (cs : List Char) : Nat :=
  cs.foldl (fun acc c => 10 * acc + digitVal c) 0

/-- Decimal digits of `n`, most significant first, via explicit fuel
(`fuel > n` suffices). -/
def toDigitsAux : Nat → Nat → List Char
  | 0, _ => []
  | fuel + 1, n =>
    if n < 10 then [Char.ofNat (n + 48)]
    else toDigitsAux fuel (n / 10) ++ [Char.ofNat (n % 10 + 48)]

/-- Python `str(n)` for a natural number. -/
def natRepr (n : Nat) : List Char := toDigitsAux (n + 1) n

/-- Python format `{int(num):0{width}d}`: left-pad with zeros to `width`
(no truncation when already wider). -/
def padZeros (width : Nat) (cs : List Char) : List Char :=
  List.replicate (width - cs.length) '0' ++ cs

/-- Longest leading run of decimal digits, with the remainder (the
greedy `(\d+)` group). -/
def splitDigits : List Char → List Char × List Char
  | [] => ([], [])
  | c :: rest =>
    if c.isDigit then
      let r := splitDigits rest
      (c :: r.1, r.2)
    else ([], c :: rest)

/-- `[SNEW]` with `re.IGNORECASE`, returning the upper-cased direction. -/
def dirOf (c : Char) : Option Char :=
  if c.toUpper == 'S' || c.toUpper == 'N' || c.toUpper == 'E' || c.toUpper == 'W' then
    some c.toUpper
  else none

/-- Match `^(LAT|LON)(\d+)([SNEW])$` (case-insensitive, `$` accepting one
trailing newline). Returns (is-LAT?, digit group, upper-cased direction). -/
def matchTag (cs : List Char) : Option (Bool × List Char × Char) :=
  match cs with
  | p1 :: p2 :: p3 :: rest =>
    let isLat := p1.toUpper == 'L' && p2.toUpper == 'A' && p3.toUpper == 'T'
    let isLon := p1.toUpper == 'L' && p2.toUpper == 'O' && p3.toUpper == 'N'
    if isLat || isLon then
      let sd := splitDigits rest
      if sd.1.isEmpty then none
      else
        match sd.2 with
        | [d] => (dirOf d).map (fun u => (isLat, sd.1, u))
        | [d, nl] =>
          if nl == '\n' then (dirOf d).map (fun u => (isLat, sd.1, u)) else none
        | _ => none
    else none
  | _ => none

/-- `_normalize_tag_padded` (path_utils.py lines 11-23). -/
def normalize_tag_padded (s : String) : String :=
  match matchTag s.toList with
  | none => s
  | some (isLat, digits, dir) =>
    let width := if isLat then 2 else 3
    String.mk ((if isLat then ['L', 'A', 'T'] else ['L', 'O', 'N'])
      ++ padZeros width (natRepr (parseDigits digits)) ++ [dir])

/-- The tag-derived name loop (path_utils.py lines 99-112):
`zip(tags_pref, tags_suff)` then every tag, producing
(original, normalized) pairs. -/
def tagPairs (tags : List String) : List (String × String) :=
  (tagPrefixes.zip tagSuffixes).flatMap (fun ps =>
    tags.map (fun tag =>
      (ps.1 ++ tag ++ ps.2, ps.1 ++ normalize_tag_padded tag ++ ps.2)))

/-- Python's `<` on strings: lexicographic comparison of the code points,
a shorter string preceding its proper extensions. -/
def strLtB : List Char → List Char → Bool
  | [], [] => false
  | [], _ :: _ => true
  | _ :: _, [] => false
  | a :: as, b :: bs =>
    if a.toNat < b.toNat then true
    else if b.toNat < a.toNat then false
    else strLtB as bs

/-- Python's `<=` on strings: the complement of the reversed strict order. -/
def strLeB (as bs : List Char) : Bool := !(strLtB bs as)

/-- Python tuple comparison on (normalized, original) pairs, as used by
`sorted(zip(variables_normalized, variables))`: first components decide,
ties fall through to the second components. -/
def pairLeB (p q : String × String) : Bool :=
  if p.1 == q.1 then strLeB p.2.toList q.2.toList
  else strLtB p.1.toList q.1.toList

/-- `pairLeB` as a relation, for `List.insertionSort`. -/
def pairLE (p q : String × String) : Prop := pairLeB p q = true

instance : DecidableRel pairLE := fun p q =>
  inferInstanceAs (Decidable (pairLeB p q = true))

/-- `get_variables_for_experiment` (path_utils.py lines 26-120): frequency
selects the vanilla row list (`ValueError` otherwise); classification and
`use_tags` select vanilla variables; tag-derived names are added when
`use_tags`; the (normalized, original) pairs are sorted lexicographically
and the result is the original-name list plus the original→normalized
mapping (`dict(zip(variables, variables_normalized))`). -/
def get_variables_for_experiment (experiment frequency : String)
    (vanillaMonRows vanillaDayRows : List (String × String)) (tagRows : List String) :
    Except String (List String × List (String × String)) :=
  if frequency == "mon" ∨ frequency == "day" then
    let rows := if frequency == "mon" then vanillaMonRows else vanillaDayRows
    let useTags := useTagsOf experiment
    let pairs0 := vanillaPairs useTags rows ++ (if useTags then tagPairs tagRows else [])
    let sortedPairs := List.insertionSort pairLE (pairs0.map (fun p => (p.2, p.1)))
    let varNames := sortedPairs.map (fun p => p.2)
    let normalized := sortedPairs.map (fun p => p.1)
    Except.ok (varNames, varNames.zip normalized)
  else
    Except.error ("Invalid frequency: " ++ frequency)

/-! ## Theorems -/

/-- Claim C1: evaluation of the save path at a concrete failing input.
`save_completion_state` opens the canonical path with mode `"w"` — which
truncates the existing file in place — and only then writes the new JSON.
The observable on-disk states during the call are therefore the old
contents, the empty file, and the new contents; the middle state is
neither the complete old contents nor the complete new contents (it is an
empty, invalid-JSON file with zero entries), so the save is not an atomic
replace. -/
theorem save_completion_state_torn_write :
    fileStates "\x7b\n  \"expA|mon\": true\n\x7d"
        (save_completion_state_steps
          "\x7b\n  \"expA|mon\": true,\n  \"expA|day\": true\n\x7d") =
      ["\x7b\n  \"expA|mon\": true\n\x7d", "",
        "\x7b\n  \"expA|mon\": true,\n  \"expA|day\": true\n\x7d"] ∧
    "" ≠ "\x7b\n  \"expA|mon\": true\n\x7d" ∧
    "" ≠ "\x7b\n  \"expA|mon\": true,\n  \"expA|day\": true\n\x7d" :=
  ⟨rfl, by decide, by decide⟩

/-- Claim C2: the chunk planner is the fixed lookup table — time-chunk 5
for daily data with a vertical dimension, 73 for daily without, 6 for
monthly with, 120 for monthly without — and any frequency other than
`"day"`/`"mon"` yields the fatal `Invalid frequency` error instead of a
size. -/
theorem chunkTimeSize_table :
    (∀ dims : List String, hasVerticalDim dims = true →
        chunkTimeSize "day" dims = Except.ok 5 ∧
        chunkTimeSize "mon" dims = Except.ok 6) ∧
    (∀ dims : List String, hasVerticalDim dims = false →
        chunkTimeSize "day" dims = Except.ok 73 ∧
        chunkTimeSize "mon" dims = Except.ok 120) ∧
    (∀ (frequency : String) (dims : List String),
        frequency ≠ "day" → frequency ≠ "mon" →
        chunkTimeSize frequency dims =
          Except.error ("Invalid frequency: " ++ frequency)) := by
  refine ⟨?_, ?_, ?_⟩
  · intro dims h
    unfold hasVerticalDim at h
    simp at h
    exact ⟨by simp [chunkTimeSize]; tauto, by simp [chunkTimeSize]; tauto⟩
  · intro dims h
    unfold hasVerticalDim at h
    simp at h
    exact ⟨by simp [chunkTimeSize]; tauto, by simp [chunkTimeSize]; tauto⟩
  · intro frequency dims hd hm
    simp [chunkTimeSize, hd, hm]

/-- Witness for C2 at concrete inputs: a vertical daily variable gets
chunk 5, a surface monthly variable gets chunk 120, and the frequency
`"year"` is a fatal configuration error. -/
theorem chunkTimeSize_table_witness :
    hasVerticalDim ["time", "lev", "lat", "lon"] = true ∧
    chunkTimeSize "day" ["time", "lev", "lat", "lon"] = Except.ok 5 ∧
    hasVerticalDim ["time", "lat", "lon"] = false ∧
    chunkTimeSize "mon" ["time", "lat", "lon"] = Except.ok 120 ∧
    chunkTimeSize "year" ["time"] = Except.error ("Invalid frequency: " ++ "year") :=
  ⟨rfl, (chunkTimeSize_table.1 ["time", "lev", "lat", "lon"] rfl).1, rfl,
    (chunkTimeSize_table.2.1 ["time", "lat", "lon"] rfl).2,
    chunkTimeSize_table.2.2 "year" ["time"] (by decide) (by decide)⟩

/-- Claim C3: monthly time normalization sorts by the time coordinate and
then substitutes each record's timestamp with the lower bound of its paired
interval. Dates are encoded as day-of-year integers: Jan-01 ↦ 1,
Jan-15 ↦ 15, Feb-01 ↦ 32, Feb-14 ↦ 45, Mar-01 ↦ 60, Mar-16 ↦ 75,
Apr-01 ↦ 91. Three monthly records with point timestamps
[Jan-15, Feb-14, Mar-16] and bounds [(Jan-01, Feb-01), (Feb-01, Mar-01),
(Mar-01, Apr-01)] normalize to the axis [Jan-01, Feb-01, Mar-01] in that
order — and the same axis results when the same records arrive in scrambled
file order, showing the sort happens first. -/
theorem monthly_time_normalization :
    (processVariable "mon"
        { recs := [⟨15, 1, 32, 100⟩, ⟨45, 32, 60, 200⟩, ⟨75, 60, 91, 300⟩],
          hasTimeBnds := true }).map (List.map TimeRec.time) =
      Except.ok [1, 32, 60] ∧
    (processVariable "mon"
        { recs := [⟨75, 60, 91, 300⟩, ⟨15, 1, 32, 100⟩, ⟨45, 32, 60, 200⟩],
          hasTimeBnds := true }).map (List.map TimeRec.time) =
      Except.ok [1, 32, 60] :=
  ⟨rfl, rfl⟩

/-- Counterexample to claim C4: a daily variable whose files carry no
`time_bnds` field does not succeed — `main` loads `ds_var["time_bnds"]`
unconditionally, before the frequency test, so the access raises a
`KeyError` for daily data too. -/
theorem daily_without_time_bnds_fails :
    processVariable "day" { recs := [⟨1, 1, 2, 10⟩], hasTimeBnds := false } =
      Except.error "KeyError: time_bnds" :=
  rfl

/-- Claim C4 as amended: the time-bounds field is required unconditionally,
not only where bounds substitution happens — a variable without it fails
with the fatal reported error at every frequency, while a daily variable
with the field present is processed with its native point timestamps
(sorted, no bounds substitution). -/
theorem time_bnds_required_unconditionally :
    (∀ (frequency : String) (v : VarData), v.hasTimeBnds = false →
        processVariable frequency v = Except.error "KeyError: time_bnds") ∧
    (∀ v : VarData, v.hasTimeBnds = true →
        processVariable "day" v = Except.ok (sortByTime v.recs)) := by
  constructor
  · intro frequency v h
    simp [processVariable, h]
  · intro v h
    simp [processVariable, h]

/-- Witness for the amended C4: a monthly variable without bounds fails,
and a daily variable with bounds succeeds with its native timestamps in
sorted order. -/
theorem time_bnds_required_unconditionally_witness :
    processVariable "mon" { recs := [⟨3, 1, 4, 7⟩], hasTimeBnds := false } =
      Except.error "KeyError: time_bnds" ∧
    processVariable "day" { recs := [⟨2, 2, 3, 7⟩, ⟨1, 1, 2, 6⟩], hasTimeBnds := true } =
      Except.ok (sortByTime [⟨2, 2, 3, 7⟩, ⟨1, 1, 2, 6⟩]) :=
  ⟨time_bnds_required_unconditionally.1 "mon" _ rfl,
    time_bnds_required_unconditionally.2 _ rfl⟩

/-- Counterexample to claim C8: on two records sharing timestamp 5 the
normalize path of `main` neither rejects the variable nor retains exactly
one occurrence — it returns successfully with both records present (the
stable sort keeps duplicates). -/
theorem duplicate_timestamps_both_retained :
    processVariable "day" { recs := [⟨5, 4, 6, 10⟩, ⟨5, 4, 6, 20⟩], hasTimeBnds := true } =
      Except.ok [⟨5, 4, 6, 10⟩, ⟨5, 4, 6, 20⟩] ∧
    (processVariable "day"
        { recs := [⟨5, 4, 6, 10⟩, ⟨5, 4, 6, 20⟩], hasTimeBnds := true }).map
        List.length = Except.ok 2 :=
  ⟨rfl, rfl⟩

/-- Inserting a binding changes exactly the looked-up key. -/
lemma lookupA_dinsert (st : CState) (k : String) (v : Bool) (q : String) :
    lookupA (dinsert st k v) q = if q = k then some v else lookupA st q := by
  induction st with
  | nil =>
    by_cases h : q = k
    · subst h; simp [dinsert, lookupA]
    · simp [dinsert, lookupA, h, Ne.symm h]
  | cons p rest ih =>
    by_cases hpk : p.1 = k
    · by_cases h : q = k
      · subst h; simp [dinsert, lookupA, hpk]
      · have hp : p.1 ≠ q := by rw [hpk]; exact Ne.symm h
        simp [dinsert, lookupA, hpk, h, Ne.symm h, hp]
    · by_cases hpq : p.1 = q
      · have hqk : ¬q = k := by rw [← hpq]; exact hpk
        simp [dinsert, lookupA, hpk, hpq, hqk]
      · simp [dinsert, lookupA, hpk, hpq, ih]

/-- Folding the all-incomplete default: configured keys map to `false`. -/
lemma lookupA_foldl_default (ks : List String) :
    ∀ (st : CState) (k : String),
      lookupA (ks.foldl (fun s q => dinsert s q false) st) k =
        if ks.contains k then some false else lookupA st k := by
  induction ks with
  | nil => intro st k; simp
  | cons k0 rest ih =>
    intro st k
    simp only [List.foldl_cons, ih, lookupA_dinsert]
    by_cases h1 : rest.contains k <;> by_cases h2 : k = k0 <;>
      simp [h1, h2, List.contains_cons, Ne.symm]

/-- Lookup in the default completion state. -/
lemma lookupA_defaultCState (frequencies experiments : List String) (k : String) :
    lookupA (defaultCState frequencies experiments) k =
      if (unitKeys frequencies experiments).contains k then some false else none := by
  unfold defaultCState
  rw [lookupA_foldl_default]
  rfl

/-- Folding `dict.update`: the last on-disk binding wins, else the base. -/
lemma lookupA_foldl_update (d : List (String × Bool)) :
    ∀ (st : CState) (k : String),
      lookupA (d.foldl (fun s p => dinsert s p.1 p.2) st) k =
        oElse (lookupLast d k) (lookupA st k) := by
  induction d with
  | nil => intro st k; simp [lookupLast, oElse]
  | cons p rest ih =>
    intro st k
    simp only [List.foldl_cons, ih, lookupA_dinsert]
    cases hL : lookupLast rest k with
    | some v => simp [lookupLast, hL, oElse]
    | none =>
      by_cases h : k = p.1
      · subst h; simp [lookupLast, hL, oElse]
      · simp [lookupLast, hL, oElse, h, Ne.symm h]

/-- Claim C5: `load_completion_state` returns every configured
(experiment, frequency) key defaulted to incomplete (`false`), overlaid
with whatever the persisted file holds; persisted entries outside the
configured units are preserved with their persisted value; and a missing
persisted file (`disk = none`) yields the all-incomplete default, with no
possibility of raising (the function is total). -/
theorem load_completion_state_spec :
    (∀ (frequencies experiments : List String) (k : String),
        lookupA (load_completion_state frequencies experiments none) k =
          (if (unitKeys frequencies experiments).contains k then some false else none)) ∧
    (∀ (frequencies experiments : List String) (disk : List (String × Bool)) (k : String),
        lookupA (load_completion_state frequencies experiments (some disk)) k =
          oElse (lookupLast disk k)
            (if (unitKeys frequencies experiments).contains k then some false else none)) := by
  constructor
  · intro frequencies experiments k
    exact lookupA_defaultCState frequencies experiments k
  · intro frequencies experiments disk k
    unfold load_completion_state
    rw [lookupA_foldl_update, lookupA_defaultCState]

/-- A unit already complete is skipped without any other action. -/
lemma runUnit_complete (catalog : String → String → List String)
    (writeOk : String → Bool) (st : CState) (e f : String)
    (h : is_store_complete st e f = true) :
    runUnit catalog writeOk st e f = (st, [DEvent.skip (completion_key e f)], true) := by
  simp [runUnit, h]

/-- An incomplete unit whose store write succeeds: build, merge every
catalog variable, write, then mark complete and persist — in that order. -/
lemma runUnit_build (catalog : String → String → List String)
    (writeOk : String → Bool) (st : CState) (e f : String)
    (h : is_store_complete st e f = false)
    (hw : writeOk (completion_key e f) = true) :
    runUnit catalog writeOk st e f =
      (dinsert st (completion_key e f) true,
        DEvent.buildBase (completion_key e f) ::
          ((catalog e f).map (DEvent.mergeVar (completion_key e f)) ++
            [DEvent.writeStore (completion_key e f),
              DEvent.persist (dinsert st (completion_key e f) true)]), true) := by
  simp [runUnit, h, hw]

/-- An incomplete unit whose store write raises: the exception propagates,
the state is unchanged and no persist happens. -/
lemma runUnit_write_failed (catalog : String → String → List String)
    (writeOk : String → Bool) (st : CState) (e f : String)
    (h : is_store_complete st e f = false)
    (hw : writeOk (completion_key e f) = false) :
    runUnit catalog writeOk st e f =
      (st, DEvent.buildBase (completion_key e f) ::
        ((catalog e f).map (DEvent.mergeVar (completion_key e f)) ++
          [DEvent.writeStore (completion_key e f)]), false) := by
  simp [runUnit, h, hw]

/-- The state after one unit is either unchanged or has exactly that
unit's key set to complete. -/
lemma runUnit_state_cases (catalog : String → String → List String)
    (writeOk : String → Bool) (st : CState) (e f : String) :
    (runUnit catalog writeOk st e f).1 = st ∨
      (runUnit catalog writeOk st e f).1 = dinsert st (completion_key e f) true := by
  by_cases h : is_store_complete st e f
  · left; rw [runUnit_complete catalog writeOk st e f h]
  · by_cases hw : writeOk (completion_key e f)
    · right
      rw [runUnit_build catalog writeOk st e f (by simpa using h) hw]
    · left
      rw [runUnit_write_failed catalog writeOk st e f (by simpa using h) (by simpa using hw)]

/-- The driver only ever sets completion flags to `true`: a key recorded
complete stays complete through any run. -/
lemma driverRun_preserves_complete (catalog : String → String → List String)
    (writeOk : String → Bool) :
    ∀ (units : List (String × String)) (st : CState) (k : String),
      lookupA st k = some true →
      lookupA (driverRun catalog writeOk st units).1 k = some true := by
  intro units
  induction units with
  | nil => intro st k h; simpa [driverRun] using h
  | cons u rest ih =>
    intro st k h
    have hpres : lookupA (runUnit catalog writeOk st u.1 u.2).1 k = some true := by
      rcases runUnit_state_cases catalog writeOk st u.1 u.2 with h1 | h1 <;> rw [h1]
      · exact h
      · rw [lookupA_dinsert]
        by_cases hk : k = completion_key u.1 u.2 <;> simp [hk, h]
    simp only [driverRun]
    split
    · exact ih _ k hpres
    · exact hpres

/-- A key belonging to none of the processed units keeps its status. -/
lemma driverRun_untouched (catalog : String → String → List String)
    (writeOk : String → Bool) :
    ∀ (units : List (String × String)) (st : CState) (k : String),
      (∀ u ∈ units, completion_key u.1 u.2 ≠ k) →
      lookupA (driverRun catalog writeOk st units).1 k = lookupA st k := by
  intro units
  induction units with
  | nil => intro st k _; simp [driverRun]
  | cons u rest ih =>
    intro st k h
    have hu : completion_key u.1 u.2 ≠ k := h u (List.mem_cons_self u rest)
    have hpres : lookupA (runUnit catalog writeOk st u.1 u.2).1 k = lookupA st k := by
      rcases runUnit_state_cases catalog writeOk st u.1 u.2 with h1 | h1 <;> rw [h1]
      · rw [lookupA_dinsert]
        simp [Ne.symm hu]
    simp only [driverRun]
    split
    · rw [ih _ k (fun v hv => h v (List.mem_cons_of_mem u hv)), hpres]
    · exact hpres

/-- Claim C6: per-unit lifecycle of the driver. A unit already complete in
the loaded state is skipped entirely — its only event is the skip, with no
base build, no variable merge and no store write. An incomplete unit is
marked complete only strictly after its store write returns: on success
the events are build, the merges, the write, and then immediately the
persist of the updated state (the last action before the next unit); if
the write raises, the state is unchanged and nothing is persisted. And for
a run over any prefix of the unit list (termination between units), every
unit complete at the start is still complete at the end, while any unit
not among the processed ones keeps its initial status — in particular an
interrupted, not-yet-processed unit is not marked complete. -/
theorem driver_unit_lifecycle :
    (∀ (catalog : String → String → List String) (writeOk : String → Bool)
        (st : CState) (e f : String), is_store_complete st e f = true →
        runUnit catalog writeOk st e f = (st, [DEvent.skip (completion_key e f)], true)) ∧
    (∀ (catalog : String → String → List String) (writeOk : String → Bool)
        (st : CState) (e f : String), is_store_complete st e f = false →
        writeOk (completion_key e f) = true →
        runUnit catalog writeOk st e f =
          (dinsert st (completion_key e f) true,
            DEvent.buildBase (completion_key e f) ::
              ((catalog e f).map (DEvent.mergeVar (completion_key e f)) ++
                [DEvent.writeStore (completion_key e f),
                  DEvent.persist (dinsert st (completion_key e f) true)]), true)) ∧
    (∀ (catalog : String → String → List String) (writeOk : String → Bool)
        (st : CState) (e f : String), is_store_complete st e f = false →
        writeOk (completion_key e f) = false →
        (runUnit catalog writeOk st e f).1 = st ∧
          (runUnit catalog writeOk st e f).2.2 = false) ∧
    (∀ (catalog : String → String → List String) (writeOk : String → Bool)
        (units : List (String × String)) (n : Nat) (st : CState) (k : String),
        lookupA st k = some true →
        lookupA (driverRun catalog writeOk st (units.take n)).1 k = some true) ∧
    (∀ (catalog : String → String → List String) (writeOk : String → Bool)
        (units : List (String × String)) (n : Nat) (st : CState) (k : String),
        (∀ u ∈ units.take n, completion_key u.1 u.2 ≠ k) →
        lookupA (driverRun catalog writeOk st (units.take n)).1 k = lookupA st k) := by
  refine ⟨runUnit_complete, runUnit_build, ?_, ?_, ?_⟩
  · intro catalog writeOk st e f h hw
    rw [runUnit_write_failed catalog writeOk st e f h hw]
    exact ⟨rfl, rfl⟩
  · intro catalog writeOk units n st k h
    exact driverRun_preserves_complete catalog writeOk (units.take n) st k h
  · intro catalog writeOk units n st k h
    exact driverRun_untouched catalog writeOk (units.take n) st k h

/-- Witness for C6 at concrete inputs: a complete unit is skipped with the
state untouched; an incomplete unit is built, written, marked and
persisted in order; and interrupting a two-unit run after the first unit
leaves the second unit incomplete. -/
theorem driver_unit_lifecycle_witness :
    runUnit (fun _ _ => ["T"]) (fun _ => true) [("expA|mon", true)] "expA" "mon" =
      ([("expA|mon", true)], [DEvent.skip "expA|mon"], true) ∧
    runUnit (fun _ _ => ["T"]) (fun _ => true) [] "expA" "mon" =
      ([("expA|mon", true)],
        [DEvent.buildBase "expA|mon", DEvent.mergeVar "expA|mon" "T",
          DEvent.writeStore "expA|mon", DEvent.persist [("expA|mon", true)]], true) ∧
    lookupA (driverRun (fun _ _ => ["T"]) (fun _ => true) [("expA|mon", true)]
        ([("expA", "mon"), ("expB", "mon")].take 1)).1 "expA|mon" = some true ∧
    lookupA (driverRun (fun _ _ => ["T"]) (fun _ => true) [("expA|mon", true)]
        ([("expA", "mon"), ("expB", "mon")].take 1)).1 "expB|mon" =
      lookupA [("expA|mon", true)] "expB|mon" :=
  ⟨driver_unit_lifecycle.1 _ _ _ "expA" "mon" (by decide),
    driver_unit_lifecycle.2.1 _ _ _ "expA" "mon" (by decide) rfl,
    driver_unit_lifecycle.2.2.2.1 _ _ [("expA", "mon"), ("expB", "mon")] 1 _ "expA|mon"
      (by decide),
    driver_unit_lifecycle.2.2.2.2 _ _ [("expA", "mon"), ("expB", "mon")] 1 _ "expB|mon"
      (by decide)⟩

/-- All-complete runs change nothing: every unit is skipped. -/
lemma driverRun_all_complete (catalog : String → String → List String)
    (writeOk : String → Bool) :
    ∀ (units : List (String × String)) (st : CState),
      (∀ u ∈ units, is_store_complete st u.1 u.2 = true) →
      driverRun catalog writeOk st units =
        (st, units.map (fun u => DEvent.skip (completion_key u.1 u.2)), true) := by
  intro units
  induction units with
  | nil => intro st _; rfl
  | cons u rest ih =>
    intro st h
    have hu := h u (List.mem_cons_self u rest)
    have hrest := ih st (fun v hv => h v (List.mem_cons_of_mem u hv))
    simp only [driverRun, runUnit_complete catalog writeOk st u.1 u.2 hu, hrest]
    simp

/-- Claim C7: when every configured (experiment, frequency) unit is
already complete in the loaded state, the driver performs no store writes
— every unit contributes only its skip event — and terminates successfully
with the completion state unchanged. -/
theorem driver_idempotent_when_all_complete
    (catalog : String → String → List String) (writeOk : String → Bool)
    (frequencies experiments : List String) (st : CState)
    (h : ∀ u ∈ unitsOf frequencies experiments, is_store_complete st u.1 u.2 = true) :
    driverRun catalog writeOk st (unitsOf frequencies experiments) =
      (st, (unitsOf frequencies experiments).map
        (fun u => DEvent.skip (completion_key u.1 u.2)), true) ∧
    ∀ k, DEvent.writeStore k ∉
      (driverRun catalog writeOk st (unitsOf frequencies experiments)).2.1 := by
  have heq := driverRun_all_complete catalog writeOk (unitsOf frequencies experiments) st h
  refine ⟨heq, ?_⟩
  intro k hk
  rw [heq] at hk
  simp only [List.mem_map] at hk
  obtain ⟨u, _, habs⟩ := hk
  exact DEvent.noConfusion habs

/-- Witness for C7: with both configured units complete, a concrete run
only skips, writes nothing, and leaves the state exactly as loaded. -/
theorem driver_idempotent_when_all_complete_witness :
    driverRun (fun _ _ => ["T"]) (fun _ => true)
        [("expA|mon", true), ("expB|mon", true)] (unitsOf ["mon"] ["expA", "expB"]) =
      ([("expA|mon", true), ("expB|mon", true)],
        [DEvent.skip "expA|mon", DEvent.skip "expB|mon"], true) ∧
    ∀ k, DEvent.writeStore k ∉
      (driverRun (fun _ _ => ["T"]) (fun _ => true)
        [("expA|mon", true), ("expB|mon", true)] (unitsOf ["mon"] ["expA", "expB"])).2.1 :=
  driver_idempotent_when_all_complete (fun _ _ => ["T"]) (fun _ => true)
    ["mon"] ["expA", "expB"] [("expA|mon", true), ("expB|mon", true)] (by decide)

/-- The index selection of `first_unique_time_indices`, read back through
any indexing function consistent with the scanned suffix, keeps exactly
the first-seen values. -/
lemma firstUniqueAux_map (g : Nat → Int) :
    ∀ (ts seen : List Int) (i : Nat),
      (∀ j, j < ts.length → g (i + j) = ts.getD j 0) →
      (firstUniqueAux seen i ts).map g = keepFirstSeen seen ts := by
  intro ts
  induction ts with
  | nil => intro seen i _; rfl
  | cons t rest ih =>
    intro seen i h
    have hrest : ∀ j, j < rest.length → g (i + 1 + j) = rest.getD j 0 := by
      intro j hj
      have := h (j + 1) (by simpa using Nat.succ_lt_succ hj)
      simpa [Nat.add_assoc, Nat.add_comm 1 j] using this
    by_cases hs : seen.contains t
    · simp only [firstUniqueAux, keepFirstSeen, hs, if_pos]
      exact ih seen (i + 1) hrest
    · simp only [firstUniqueAux, keepFirstSeen, hs, if_neg, List.map_cons]
      refine congrArg₂ List.cons ?_ (ih (t :: seen) (i + 1) hrest)
      simpa using h 0 (by simp)

/-- The kept values form a subsequence of the input. -/
lemma keepFirstSeen_sublist : ∀ (ts seen : List Int), (keepFirstSeen seen ts).Sublist ts := by
  intro ts
  induction ts with
  | nil => intro seen; simp [keepFirstSeen]
  | cons t rest ih =>
    intro seen
    by_cases hs : seen.contains t
    · simp only [keepFirstSeen, hs, if_pos]
      exact (ih seen).cons t
    · simp only [keepFirstSeen, hs, if_neg]
      exact (ih (t :: seen)).cons₂ t

/-- Nothing already seen is kept again. -/
lemma keepFirstSeen_not_seen :
    ∀ (ts seen : List Int) (x : Int), x ∈ keepFirstSeen seen ts → x ∉ seen := by
  intro ts
  induction ts with
  | nil => intro seen x hx; simp [keepFirstSeen] at hx
  | cons t rest ih =>
    intro seen x hx
    by_cases hs : t ∈ seen
    · simp only [keepFirstSeen] at hx
      rw [if_pos (by simpa using hs)] at hx
      exact ih seen x hx
    · simp only [keepFirstSeen] at hx
      rw [if_neg (by simpa using hs)] at hx
      rcases List.mem_cons.mp hx with rfl | hx
      · exact hs
      · intro hmem
        exact ih (t :: seen) x hx (List.mem_cons_of_mem t hmem)

/-- Each time value is kept at most once. -/
lemma keepFirstSeen_nodup : ∀ (ts seen : List Int), (keepFirstSeen seen ts).Nodup := by
  intro ts
  induction ts with
  | nil => intro seen; simp [keepFirstSeen]
  | cons t rest ih =>
    intro seen
    by_cases hs : seen.contains t
    · simp only [keepFirstSeen, hs, if_pos]
      exact ih seen
    · simp only [keepFirstSeen, hs, if_neg]
      refine List.nodup_cons.mpr ⟨?_, ih (t :: seen)⟩
      intro hmem
      exact keepFirstSeen_not_seen rest (t :: seen) t hmem (List.mem_cons_self t seen)

/-- Every value occurring in the input is kept (unless already seen). -/
lemma keepFirstSeen_mem :
    ∀ (ts seen : List Int) (t : Int), t ∈ ts → t ∈ seen ∨ t ∈ keepFirstSeen seen ts := by
  intro ts
  induction ts with
  | nil => intro seen t ht; simp at ht
  | cons t0 rest ih =>
    intro seen t ht
    rcases List.mem_cons.mp ht with rfl | ht
    · by_cases hs : t ∈ seen
      · exact Or.inl hs
      · right; simp [keepFirstSeen, hs]
    · by_cases hs : t0 ∈ seen
      · rcases ih seen t ht with h | h
        · exact Or.inl h
        · right; simpa [keepFirstSeen, hs] using h
      · rcases ih (t0 :: seen) t ht with h | h
        · rcases List.mem_cons.mp h with rfl | h
          · right; simp [keepFirstSeen, hs]
          · exact Or.inl h
        · right; simp [keepFirstSeen, hs, h]

/-- Claim C8 as amended: the normalize path of the core never rejects a
variable for duplicate timestamps and never drops records — its output has
exactly as many records as the input, so duplicates are silently retained
there. First-seen deduplication is instead the job of the separate repair
utility: `first_unique_time_indices` selects indices whose values are the
first-seen occurrences (`keepFirstSeen`), a duplicate-free subsequence of
the input covering every time value. -/
theorem duplicate_policy_amended :
    (∀ (frequency : String) (v : VarData), v.hasTimeBnds = true →
        (processVariable frequency v).map List.length = Except.ok v.recs.length) ∧
    (∀ ts : List Int,
        (first_unique_time_indices ts).map (fun i => ts.getD i 0) = keepFirstSeen [] ts) ∧
    (∀ ts : List Int,
        (keepFirstSeen [] ts).Sublist ts ∧ (keepFirstSeen [] ts).Nodup ∧
        ∀ t ∈ ts, t ∈ keepFirstSeen [] ts) := by
  refine ⟨?_, ?_, ?_⟩
  · intro frequency v h
    by_cases hm : frequency == "mon" <;>
      simp [processVariable, h, hm, sortByTime, Except.map, List.length_insertionSort]
  · intro ts
    exact firstUniqueAux_map (fun i => ts.getD i 0) ts [] 0 (by simp)
  · intro ts
    refine ⟨keepFirstSeen_sublist ts [], keepFirstSeen_nodup ts [], ?_⟩
    intro t ht
    rcases keepFirstSeen_mem ts [] t ht with h | h
    · simp at h
    · exact h

/-- Witness for the amended C8: on the duplicated pair the core keeps both
records, while the repair utility keeps exactly the first occurrence. -/
theorem duplicate_policy_amended_witness :
    (processVariable "day"
        { recs := [⟨5, 4, 6, 11⟩, ⟨5, 4, 6, 21⟩], hasTimeBnds := true }).map
      List.length = Except.ok 2 ∧
    (first_unique_time_indices [5, 5]).map (fun i => [5, 5].getD i 0) =
      keepFirstSeen [] [5, 5] ∧
    (keepFirstSeen [] [(5 : Int), 5]).Sublist [5, 5] ∧
    (keepFirstSeen [] [(5 : Int), 5]).Nodup :=
  ⟨duplicate_policy_amended.1 "day" _ rfl,
    duplicate_policy_amended.2.1 [5, 5],
    (duplicate_policy_amended.2.2 [5, 5]).1,
    (duplicate_policy_amended.2.2 [5, 5]).2.1⟩

/-- Characters with equal code points are equal. -/
lemma char_eq_of_toNat_eq {a b : Char} (h : a.toNat = b.toNat) : a = b := by
  rw [← Char.ofNat_toNat a, ← Char.ofNat_toNat b, h]

/-- The string order is irreflexive. -/
lemma strLtB_irrefl : ∀ as, strLtB as as = false := by
  intro as
  induction as with
  | nil => rfl
  | cons a as ih => simp [strLtB, ih]

/-- The string order is transitive. -/
lemma strLtB_trans :
    ∀ as bs cs, strLtB as bs = true → strLtB bs cs = true → strLtB as cs = true := by
  intro as
  induction as with
  | nil =>
    intro bs cs h1 h2
    cases bs with
    | nil => simp [strLtB] at h1
    | cons b bs =>
      cases cs with
      | nil => simp [strLtB] at h2
      | cons c cs => simp [strLtB]
  | cons a as ih =>
    intro bs cs h1 h2
    cases bs with
    | nil => simp [strLtB] at h1
    | cons b bs =>
      cases cs with
      | nil => simp [strLtB] at h2
      | cons c cs =>
        simp only [strLtB] at h1 h2 ⊢
        rcases Nat.lt_trichotomy a.toNat b.toNat with hab | hab | hab
        · rcases Nat.lt_trichotomy b.toNat c.toNat with hbc | hbc | hbc
          · simp [hab.trans hbc]
          · simp [hbc ▸ hab]
          · simp [Nat.lt_asymm hbc, hbc] at h2
        · have heq : a = b := char_eq_of_toNat_eq hab
          subst heq
          simp only [Nat.lt_irrefl, if_false] at h1
          rcases Nat.lt_trichotomy a.toNat c.toNat with hac | hac | hac
          · simp [hac]
          · have heq2 : a = c := char_eq_of_toNat_eq hac
            subst heq2
            simp only [Nat.lt_irrefl, if_false] at h2 ⊢
            exact ih bs cs h1 h2
          · simp [Nat.lt_asymm hac, hac] at h2
        · simp [Nat.lt_asymm hab, hab] at h1

/-- The string order is asymmetric. -/
lemma strLtB_asymm (as bs : List Char) (h : strLtB as bs = true) :
    strLtB bs as = false := by
  cases hba : strLtB bs as with
  | false => rfl
  | true =>
    have := strLtB_trans as bs as h hba
    rw [strLtB_irrefl] at this
    exact Bool.noConfusion this

/-- Incomparable character lists are equal. -/
lemma strLtB_connex :
    ∀ as bs, strLtB as bs = false → strLtB bs as = false → as = bs := by
  intro as
  induction as with
  | nil =>
    intro bs h1 _
    cases bs with
    | nil => rfl
    | cons b bs => simp [strLtB] at h1
  | cons a as ih =>
    intro bs h1 h2
    cases bs with
    | nil => simp [strLtB] at h2
    | cons b bs =>
      rcases Nat.lt_trichotomy a.toNat b.toNat with h | h | h
      · simp [strLtB, h] at h1
      · have heq : a = b := char_eq_of_toNat_eq h
        subst heq
        simp only [strLtB, Nat.lt_irrefl, if_false] at h1 h2
        rw [ih bs h1 h2]
      · simp [strLtB, h, Nat.lt_asymm h] at h2

/-- Reflexivity of the non-strict string order. -/
lemma strLeB_refl (as : List Char) : strLeB as as = true := by
  simp [strLeB, strLtB_irrefl]

/-- Totality of the non-strict string order. -/
lemma strLeB_total (as bs : List Char) : strLeB as bs = true ∨ strLeB bs as = true := by
  cases h : strLtB bs as with
  | false => left; simp [strLeB, h]
  | true => right; simp [strLeB, strLtB_asymm bs as h]

/-- Transitivity of the non-strict string order. -/
lemma strLeB_trans (as bs cs : List Char)
    (h1 : strLeB as bs = true) (h2 : strLeB bs cs = true) : strLeB as cs = true := by
  simp only [strLeB, Bool.not_eq_true'] at h1 h2 ⊢
  cases hca : strLtB cs as with
  | false => rfl
  | true =>
    cases hab : strLtB as bs with
    | true =>
      have := strLtB_trans cs as bs hca hab
      rw [h2] at this
      exact Bool.noConfusion this
    | false =>
      have heq : as = bs := strLtB_connex as bs hab h1
      subst heq
      rw [hca] at h2
      exact Bool.noConfusion h2

/-- Strings with equal character lists are equal. -/
lemma string_eq_of_toList_eq {s t : String} (h : s.toList = t.toList) : s = t := by
  cases s
  cases t
  exact congrArg String.mk h

instance : IsTotal (String × String) pairLE where
  total := by
    rintro ⟨p1, p2⟩ ⟨q1, q2⟩
    simp only [pairLE, pairLeB]
    by_cases h : p1 = q1
    · subst h
      simp only [beq_self_eq_true, if_true]
      exact strLeB_total _ _
    · simp only [beq_iff_eq, h, Ne.symm h, if_false]
      cases h1 : strLtB p1.toList q1.toList with
      | true => exact Or.inl rfl
      | false =>
        cases h2 : strLtB q1.toList p1.toList with
        | true => exact Or.inr rfl
        | false => exact absurd (string_eq_of_toList_eq (strLtB_connex _ _ h1 h2)) h

instance : IsTrans (String × String) pairLE where
  trans := by
    rintro ⟨p1, p2⟩ ⟨q1, q2⟩ ⟨r1, r2⟩ hpq hqr
    simp only [pairLE, pairLeB] at hpq hqr ⊢
    by_cases h1 : p1 = q1
    · subst h1
      by_cases h2 : p1 = r1
      · subst h2
        simp only [beq_self_eq_true, if_true] at hpq hqr ⊢
        exact strLeB_trans _ _ _ hpq hqr
      · simp only [beq_iff_eq, h2, if_false, beq_self_eq_true, if_true] at hpq hqr ⊢
        exact hqr
    · by_cases h2 : q1 = r1
      · subst h2
        simp only [beq_iff_eq, h1, if_false] at hpq hqr ⊢
        exact hpq
      · by_cases h3 : p1 = r1
        · subst h3
          simp only [beq_iff_eq, h1, h2, if_false] at hpq hqr
          have habs := strLtB_trans _ _ _ hpq hqr
          rw [strLtB_irrefl] at habs
          exact Bool.noConfusion habs
        · simp only [beq_iff_eq, h1, h2, h3, if_false] at hpq hqr ⊢
          exact strLtB_trans _ _ _ hpq hqr

/-- Tuple comparison is monotone in its first component. -/
lemma pairLE_fst {p q : String × String} (h : pairLE p q) :
    strLeB p.1.toList q.1.toList = true := by
  unfold pairLE pairLeB at h
  by_cases h1 : p.1 = q.1
  · rw [h1]; exact strLeB_refl _
  · simp only [beq_iff_eq, h1, if_false] at h
    unfold strLeB
    rw [strLtB_asymm _ _ h]
    rfl

/-- A key absent from an association list has no last binding. -/
lemma lookupLast_eq_none {α : Type} (d : List (String × α)) (k : String)
    (h : k ∉ d.map Prod.fst) : lookupLast d k = none := by
  induction d with
  | nil => rfl
  | cons p rest ih =>
    simp only [List.map_cons, List.mem_cons] at h
    push_neg at h
    simp [lookupLast, ih h.2, Ne.symm h.1]

/-- A key present among the first components has a last binding. -/
lemma lookupLast_isSome {α : Type} (d : List (String × α)) (k : String)
    (h : k ∈ d.map Prod.fst) : (lookupLast d k).isSome := by
  induction d with
  | nil => simp at h
  | cons p rest ih =>
    simp only [lookupLast]
    cases hL : lookupLast rest k with
    | some v => simp
    | none =>
      simp only [List.map_cons, List.mem_cons] at h
      rcases h with h | h
      · simp [h]
      · have := ih h
        rw [hL] at this
        simp at this

/-- Consing a binding does not change lookups that already succeed. -/
lemma lookupLast_cons_of_isSome {α : Type} (p : String × α) (rest : List (String × α))
    (k : String) (h : (lookupLast rest k).isSome) :
    lookupLast (p :: rest) k = lookupLast rest k := by
  simp only [lookupLast]
  cases hL : lookupLast rest k with
  | some v => rfl
  | none => rw [hL] at h; simp at h

/-- With duplicate-free keys, looking every key back up reads off the
second components in order. -/
lemma map_lookupLast_getD (d : List (String × String))
    (hnd : (d.map Prod.fst).Nodup) :
    (d.map Prod.fst).map (fun v => (lookupLast d v).getD "") = d.map Prod.snd := by
  induction d with
  | nil => rfl
  | cons p rest ih =>
    simp only [List.map_cons, List.nodup_cons] at hnd
    obtain ⟨hp, hrest⟩ := hnd
    simp only [List.map_cons]
    refine congrArg₂ List.cons ?_ ?_
    · rw [show lookupLast (p :: rest) p.1 = some p.2 by
        simp [lookupLast, lookupLast_eq_none rest p.1 hp]]
      rfl
    · rw [List.map_congr_left (fun v hv => by
        rw [lookupLast_cons_of_isSome p rest v (lookupLast_isSome rest v hv)])]
      exact ih hrest

/-- The sorted-pairs construction at the end of
`get_variables_for_experiment`: sortedness of the normalized components
and totality of the zipped original→normalized mapping. -/
lemma sorted_zip_spec (pairs : List (String × String))
    (vars normeds : List String) (dict : List (String × String))
    (hv : vars = (List.insertionSort pairLE pairs).map (fun p => p.2))
    (hn : normeds = (List.insertionSort pairLE pairs).map (fun p => p.1))
    (hd : dict = vars.zip normeds) :
    (∀ v ∈ vars, (lookupLast dict v).isSome) ∧
    List.Sorted (fun a b : String => strLeB a.toList b.toList = true) (dict.map Prod.snd) ∧
    (vars.Nodup → vars.map (fun v => (lookupLast dict v).getD "") = dict.map Prod.snd) := by
  have hlen : vars.length = normeds.length := by
    rw [hv, hn]; simp
  have hfst : dict.map Prod.fst = vars := by
    rw [hd]; exact List.map_fst_zip _ _ (le_of_eq hlen)
  have hsnd : dict.map Prod.snd = normeds := by
    rw [hd]; exact List.map_snd_zip _ _ (le_of_eq hlen.symm)
  refine ⟨?_, ?_, ?_⟩
  · intro v hvv
    refine lookupLast_isSome _ v ?_
    rw [hfst]
    exact hvv
  · rw [hsnd, hn]
    exact (List.sorted_insertionSort pairLE pairs).map _ (fun a b h => pairLE_fst h)
  · intro hnd
    have hnd' : (dict.map Prod.fst).Nodup := by rw [hfst]; exact hnd
    have h3 := map_lookupLast_getD dict hnd'
    rw [hfst] at h3
    exact h3

/-- Claim C9: for every experiment and both valid frequencies, the two
return values of the variable catalog are consistent and ordered — every
name in the returned variable list is a key of the returned name mapping
(so the driver's per-variable rename lookup never misses), and, the
variable names being pairwise distinct, the list is sorted in ascending
order of the normalized (display) names each maps to. The CSV assets enter
as arbitrary parsed row lists. -/
theorem get_variables_for_experiment_spec
    (experiment frequency : String) (monRows dayRows : List (String × String))
    (tagRows : List String) (vars : List String) (dict : List (String × String))
    (hfreq : frequency = "mon" ∨ frequency = "day")
    (hok : get_variables_for_experiment experiment frequency monRows dayRows tagRows =
      Except.ok (vars, dict))
    (hnd : vars.Nodup) :
    (∀ v ∈ vars, (lookupLast dict v).isSome) ∧
    List.Sorted (fun a b : String => strLeB a.toList b.toList = true) (dict.map Prod.snd) ∧
    vars.map (fun v => (lookupLast dict v).getD "") = dict.map Prod.snd := by
  rcases hfreq with rfl | rfl <;>
    simp only [get_variables_for_experiment, Except.ok.injEq, Prod.mk.injEq] at hok <;>
    simp at hok <;>
    obtain ⟨h1, h2⟩ := hok <;>
    have h := sorted_zip_spec _ vars _ dict h1.symm rfl
      (by rw [← h2, h1]) <;>
    exact ⟨h.1, h.2.1, h.2.2 hnd⟩

/-- Witness for C9: the tagged experiment with two vanilla rows, one tag
row and frequency `mon` yields a variable list sorted by normalized name
whose every entry the mapping resolves. -/
theorem get_variables_for_experiment_spec_witness :
    (∀ v ∈ (["LAT5SV", "PRECRC_LAT5Sr", "PRECRL_LAT5SR", "PRECSC_LAT5Ss",
        "PRECSL_LAT5SS", "Q", "T"] : List String),
      (lookupLast [("LAT5SV", "LAT05SV"), ("PRECRC_LAT5Sr", "PRECRC_LAT05Sr"),
        ("PRECRL_LAT5SR", "PRECRL_LAT05SR"), ("PRECSC_LAT5Ss", "PRECSC_LAT05Ss"),
        ("PRECSL_LAT5SS", "PRECSL_LAT05SS"), ("Q", "Q"), ("T", "T")] v).isSome) ∧
    List.Sorted (fun a b : String => strLeB a.toList b.toList = true)
      (([("LAT5SV", "LAT05SV"), ("PRECRC_LAT5Sr", "PRECRC_LAT05Sr"),
        ("PRECRL_LAT5SR", "PRECRL_LAT05SR"), ("PRECSC_LAT5Ss", "PRECSC_LAT05Ss"),
        ("PRECSL_LAT5SS", "PRECSL_LAT05SS"), ("Q", "Q"), ("T", "T")] :
          List (String × String)).map Prod.snd) ∧
    (["LAT5SV", "PRECRC_LAT5Sr", "PRECRL_LAT5SR", "PRECSC_LAT5Ss",
        "PRECSL_LAT5SS", "Q", "T"] : List String).map
        (fun v => (lookupLast [("LAT5SV", "LAT05SV"), ("PRECRC_LAT5Sr", "PRECRC_LAT05Sr"),
          ("PRECRL_LAT5SR", "PRECRL_LAT05SR"), ("PRECSC_LAT5Ss", "PRECSC_LAT05Ss"),
          ("PRECSL_LAT5SS", "PRECSL_LAT05SS"), ("Q", "Q"), ("T", "T")] v).getD "") =
      ([("LAT5SV", "LAT05SV"), ("PRECRC_LAT5Sr", "PRECRC_LAT05Sr"),
        ("PRECRL_LAT5SR", "PRECRL_LAT05SR"), ("PRECSC_LAT5Ss", "PRECSC_LAT05Ss"),
        ("PRECSL_LAT5SS", "PRECSL_LAT05SS"), ("Q", "Q"), ("T", "T")] :
          List (String × String)).map Prod.snd :=
  get_variables_for_experiment_spec "iso-piControl-tag" "mon"
    [("T", "both"), ("PS", "no_tag"), ("Q", "tag")] [] ["LAT5S"] _ _
    (Or.inl rfl) (by decide) (by decide)

/-- Appending a digit multiplies the parsed value by ten and adds it. -/
lemma parseDigits_append (xs : List Char) (c : Char) :
    parseDigits (xs ++ [c]) = 10 * parseDigits xs + digitVal c := by
  unfold parseDigits
  rw [List.foldl_append]
  rfl

/-- `Char.ofNat (m + 48)` is a decimal digit for `m < 10`. -/
lemma digit_char_isDigit (m : Nat) (h : m < 10) : (Char.ofNat (m + 48)).isDigit = true := by
  interval_cases m <;> decide

/-- Round trip for single digits. -/
lemma digitVal_ofNat (m : Nat) (h : m < 10) : digitVal (Char.ofNat (m + 48)) = m := by
  interval_cases m <;> decide

/-- The decimal printer is faithful: nonempty digit output that parses
back to the printed number, for sufficient fuel. -/
lemma toDigitsAux_spec :
    ∀ fuel n : Nat, n < fuel →
      toDigitsAux fuel n ≠ [] ∧ (∀ c ∈ toDigitsAux fuel n, c.isDigit = true) ∧
        parseDigits (toDigitsAux fuel n) = n := by
  intro fuel
  induction fuel with
  | zero => intro n h; omega
  | succ fuel ih =>
    intro n h
    by_cases h10 : n < 10
    · refine ⟨by simp [toDigitsAux, h10], ?_, ?_⟩
      · intro c hc
        simp only [toDigitsAux, h10, if_true, List.mem_singleton] at hc
        subst hc
        exact digit_char_isDigit n h10
      · simp only [toDigitsAux, h10, if_true]
        show 10 * 0 + digitVal (Char.ofNat (n + 48)) = n
        rw [digitVal_ofNat n h10]
        omega
    · have hn : 0 < n := by omega
      have hdivlt : n / 10 < n := Nat.div_lt_self hn (by omega)
      have hdiv : n / 10 < fuel := by omega
      obtain ⟨hne, hdig, hval⟩ := ih (n / 10) hdiv
      refine ⟨?_, ?_, ?_⟩
      · simp only [toDigitsAux, h10, if_false]
        intro hc
        rcases List.append_eq_nil.mp hc with ⟨_, h2⟩
        exact List.noConfusion h2
      · intro c hc
        simp only [toDigitsAux, h10, if_false, List.mem_append, List.mem_singleton] at hc
        rcases hc with hc | hc
        · exact hdig c hc
        · subst hc
          exact digit_char_isDigit (n % 10) (Nat.mod_lt _ (by omega))
      · simp only [toDigitsAux, h10, if_false]
        rw [parseDigits_append, hval, digitVal_ofNat (n % 10) (Nat.mod_lt _ (by omega))]
        omega

/-- `str(n)` is never empty. -/
lemma natRepr_ne_nil (n : Nat) : natRepr n ≠ [] :=
  (toDigitsAux_spec (n + 1) n (by omega)).1

/-- `str(n)` consists of decimal digits. -/
lemma natRepr_digits (n : Nat) : ∀ c ∈ natRepr n, c.isDigit = true :=
  (toDigitsAux_spec (n + 1) n (by omega)).2.1

/-- `int(str(n)) = n`. -/
lemma parseDigits_natRepr (n : Nat) : parseDigits (natRepr n) = n :=
  (toDigitsAux_spec (n + 1) n (by omega)).2.2

/-- Leading zeros contribute nothing to the parsed value. -/
lemma foldl_parse_zeros :
    ∀ k : Nat, List.foldl (fun acc c => 10 * acc + digitVal c) 0 (List.replicate k '0') = 0 := by
  intro k
  induction k with
  | zero => rfl
  | succ k ih =>
    have h0 : 10 * 0 + digitVal '0' = 0 := by decide
    simp only [List.replicate_succ, List.foldl_cons, h0]
    exact ih

/-- Zero padding does not change the parsed value. -/
lemma parseDigits_padZeros (w : Nat) (cs : List Char) :
    parseDigits (padZeros w cs) = parseDigits cs := by
  unfold padZeros parseDigits
  rw [List.foldl_append, foldl_parse_zeros]

/-- Zero padding preserves digit-ness. -/
lemma padZeros_digits (w : Nat) (cs : List Char) (h : ∀ c ∈ cs, c.isDigit = true) :
    ∀ c ∈ padZeros w cs, c.isDigit = true := by
  intro c hc
  unfold padZeros at hc
  rw [List.mem_append] at hc
  rcases hc with hc | hc
  · rw [List.eq_of_mem_replicate hc]; decide
  · exact h c hc

/-- Zero padding preserves nonemptiness. -/
lemma padZeros_ne_nil (w : Nat) (cs : List Char) (h : cs ≠ []) : padZeros w cs ≠ [] := by
  unfold padZeros
  intro hc
  exact h (List.append_eq_nil.mp hc).2

/-- The greedy digit scan splits an all-digit block from a non-digit-led
remainder. -/
lemma splitDigits_append (xs ys : List Char) (hx : ∀ c ∈ xs, c.isDigit = true)
    (hy : ∀ d, ys.head? = some d → d.isDigit = false) :
    splitDigits (xs ++ ys) = (xs, ys) := by
  induction xs with
  | nil =>
    cases ys with
    | nil => rfl
    | cons d rest =>
      have hd := hy d rfl
      simp [splitDigits, hd]
  | cons c xs ih =>
    have hc : c.isDigit = true := hx c (List.mem_cons_self c xs)
    have := ih (fun c2 hc2 => hx c2 (List.mem_cons_of_mem _ hc2))
    simp [splitDigits, hc, this]

/-- A successful direction match returns an upper-case member of SNEW. -/
lemma dirOf_cases (c u : Char) (h : dirOf c = some u) :
    u = 'S' ∨ u = 'N' ∨ u = 'E' ∨ u = 'W' := by
  unfold dirOf at h
  split at h
  · rename_i hcond
    injection h with h
    subst h
    rcases (by simpa using hcond : _ ∨ _) with ((h | h) | h) | h <;>
      simp [show Char.toUpper c = _ from (by simpa using h)]
  · exact Option.noConfusion h

/-- Upper-case SNEW members are fixed points of the direction match and
are not digits. -/
lemma dirOf_fixed (u : Char) (hu : u = 'S' ∨ u = 'N' ∨ u = 'E' ∨ u = 'W') :
    dirOf u = some u ∧ u.isDigit = false := by
  rcases hu with rfl | rfl | rfl | rfl <;> exact ⟨by decide, by decide⟩

/-- A successful tag match obtained its direction from `dirOf`. -/
lemma matchTag_dir (cs : List Char) (b : Bool) (digits : List Char) (u : Char)
    (h : matchTag cs = some (b, digits, u)) : ∃ d, dirOf d = some u := by
  simp only [matchTag] at h
  split at h
  all_goals try exact Option.noConfusion h
  split at h
  all_goals try exact Option.noConfusion h
  split at h
  all_goals try exact Option.noConfusion h
  split at h
  all_goals try exact Option.noConfusion h
  all_goals try (split at h; all_goals try exact Option.noConfusion h)
  all_goals
    obtain ⟨a, ha, hg⟩ := Option.map_eq_some'.mp h
  all_goals
    have hau : a = u := by
      simpa using congrArg (fun t : Bool × List Char × Char => t.2.2) hg
  all_goals exact ⟨_, hau ▸ ha⟩

/-- Matching the rebuilt normalized tag succeeds and recovers its parts. -/
lemma matchTag_normalized (isLat : Bool) (digits : List Char) (u : Char)
    (hne : digits ≠ []) (hdig : ∀ c ∈ digits, c.isDigit = true)
    (hu : dirOf u = some u) (hud : u.isDigit = false) :
    matchTag ((if isLat then ['L', 'A', 'T'] else ['L', 'O', 'N']) ++ digits ++ [u]) =
      some (isLat, digits, u) := by
  have hsplit : splitDigits (digits ++ [u]) = (digits, [u]) :=
    splitDigits_append digits [u] hdig
      (by intro d hd; injection hd with hd; rw [← hd]; exact hud)
  have hemp : digits.isEmpty = false := by
    cases digits with
    | nil => exact absurd rfl hne
    | cons c cs => rfl
  cases isLat with
  | false =>
    show matchTag ('L' :: 'O' :: 'N' :: (digits ++ [u])) = some (false, digits, u)
    unfold matchTag
    simp only [hsplit, hemp, hu]
    rfl
  | true =>
    show matchTag ('L' :: 'A' :: 'T' :: (digits ++ [u])) = some (true, digits, u)
    unfold matchTag
    simp only [hsplit, hemp, hu]
    rfl

/-- The matching branch of `_normalize_tag_padded`, as an equation. -/
lemma normalize_tag_padded_eq_of_match (s : String) (isLat : Bool)
    (digits : List Char) (u : Char)
    (h : matchTag s.toList = some (isLat, digits, u)) :
    normalize_tag_padded s =
      String.mk ((if isLat then ['L', 'A', 'T'] else ['L', 'O', 'N']) ++
        padZeros (if isLat then 2 else 3) (natRepr (parseDigits digits)) ++ [u]) := by
  unfold normalize_tag_padded
  rw [h]

/-- The non-matching branch of `_normalize_tag_padded`, as an equation. -/
lemma normalize_tag_padded_eq_of_no_match (s : String)
    (h : matchTag s.toList = none) : normalize_tag_padded s = s := by
  unfold normalize_tag_padded
  rw [h]

/-- Claim C10: tag normalization is idempotent — applying
`_normalize_tag_padded` to its own output returns the output unchanged,
both on matching LAT/LON tags and on non-matching strings. -/
theorem normalize_tag_padded_idempotent (s : String) :
    normalize_tag_padded (normalize_tag_padded s) = normalize_tag_padded s := by
  cases hm : matchTag s.toList with
  | none =>
    rw [normalize_tag_padded_eq_of_no_match s hm, normalize_tag_padded_eq_of_no_match s hm]
  | some t =>
    obtain ⟨isLat, digits, dir⟩ := t
    obtain ⟨d, hdof⟩ := matchTag_dir s.toList isLat digits dir hm
    obtain ⟨hfix, hud⟩ := dirOf_fixed dir (dirOf_cases d dir hdof)
    have hmatch := matchTag_normalized isLat
      (padZeros (if isLat then 2 else 3) (natRepr (parseDigits digits))) dir
      (padZeros_ne_nil _ _ (natRepr_ne_nil _))
      (padZeros_digits _ _ (natRepr_digits _)) hfix hud
    rw [normalize_tag_padded_eq_of_match s isLat digits dir hm,
      normalize_tag_padded_eq_of_match _ isLat
        (padZeros (if isLat then 2 else 3) (natRepr (parseDigits digits))) dir hmatch,
      parseDigits_padZeros, parseDigits_natRepr]

end ZarrBuild
